import Mathlib

/-
Verification of rcopy: a utility that recursively collects files matching a
shell-glob pattern from a source directory tree into one flat destination
directory, resolving name collisions by inserting an incrementing numeric
index before the file extension.

The development shallowly embeds the program:
* filenames with Python pathlib stem/suffix splitting (`pathStem`, `pathSuffix`),
* the candidate-name generator `filenames_with_index` (function from yield
  position to the yielded value, `none` once the generator has returned),
* shell-glob matching as performed by `fnmatch` on a POSIX host (`globMatch`),
* the destination directory as an association list of name/content pairs,
* `copyfile` and `rcopy` as state transformers over that destination plus a
  log of emitted console events; `copyfileE`/`rcopyE` additionally model a
  fallible filesystem through an oracle saying which mutating writes fail,
  with failures propagating as `Except.error` exactly as an uncaught Python
  exception would.
-/

namespace RCopy

/-- Filenames (and file contents) are modelled as lists of characters. -/
abbrev Name := List Char

/-- File contents: abstract bytes. -/
abbrev Content := List Char

/-- Split a name at its last dot: `some (b, a)` with `name = b ++ '.' :: a`
and no dot occurring in `a`; `none` when the name contains no dot. -/
def splitLastDot : Name → Option (Name × Name)
  | [] => none
  | c :: cs =>
    match splitLastDot cs with
    | some (b, a) => some (c :: b, a)
    | none => if c = '.' then some ([], cs) else none

/-- Embedding of pathlib `PurePath.stem`: the name up to the last dot, provided
that dot is neither the first nor the last character; otherwise the whole name. -/
def pathStem (name : Name) : Name :=
  match splitLastDot name with
  | some (b, a) => if b ≠ [] ∧ a ≠ [] then b else name
  | none => name

/-- Embedding of pathlib `PurePath.suffix`: from the last dot to the end,
provided that dot is neither the first nor the last character; else empty. -/
def pathSuffix (name : Name) : Name :=
  match splitLastDot name with
  | some (b, a) => if b ≠ [] ∧ a ≠ [] then '.' :: a else []
  | none => []

/-- Value of a decimal digit character. -/
def dval (c : Char) : Nat := c.toNat - 48

/-- Little-endian decimal digits of `k`; the first argument is fuel, always
called with fuel ≥ k, which suffices since the argument is divided by ten at
each step. -/
def natToRevDigits : Nat → Nat → List Char
  | 0, _ => []
  | fuel + 1, k => if k = 0 then [] else Nat.digitChar (k % 10) :: natToRevDigits fuel (k / 10)

/-- Decimal rendering of a natural number, as produced by Python `str`. -/
def natChars (k : Nat) : List Char :=
  if k = 0 then [ '0' ] else (natToRevDigits k k).reverse

/-- Value of a little-endian digit list, inverse to `natToRevDigits`. -/
def revVal : List Char → Nat
  | [] => 0
  | c :: r => dval c + 10 * revVal r

/-- The decoration inserted by the generator: empty at index 0, otherwise
the rendering of `(k)` — translating `(f"({index})" if index else "")`. -/
def idxSuffix (k : Nat) : List Char :=
  if k = 0 then [] else '(' :: (natChars k ++ [ ')' ])

/-- Candidate filename at index `k`:
`name.stem + (f"({index})" if index else "") + name.suffix`. -/
def candidate (name : Name) (k : Nat) : Name :=
  pathStem name ++ idxSuffix k ++ pathSuffix name

/-- Whether the generator body of `filenames_with_index` still runs its k-th
iteration: iteration 0 always runs, and iteration `k+1` runs when iteration
`k` ran and the stop test `max_index is not None and index == max_index`
did not fire after yield `k`. -/
def fwiYields (maxIndex : Option Int) : Nat → Bool
  | 0 => true
  | k + 1 =>
    fwiYields maxIndex k &&
      match maxIndex with
      | none => true
      | some m => decide ((k : Int) ≠ m)

/-- The value produced by the k-th `next` call on the generator
`filenames_with_index(name, max_index)`; `none` once the generator has
returned. -/
def filenames_with_index (name : Name) (maxIndex : Option Int) (k : Nat) : Option Name :=
  if fwiYields maxIndex k then some (candidate name k) else none

/-- Stem and extension exactly as the claim words them: the extension is the
part after the last dot, and only a name with no dot has no extension. -/
def claimSplitExt (name : Name) : Name × Name :=
  match splitLastDot name with
  | some (b, a) => (b, a)
  | none => (name, [])

/-- Candidate sequence exactly as the claim words it: index 0 yields the name
unchanged; index `k ≥ 1` yields `s(k)e` when the extension `e` is non-empty
(with the `(k)` inserted immediately before the extension separator) and
`s(k)` when `e` is empty, where `s`, `e` come from `claimSplitExt`. -/
def claimCandidate (name : Name) (k : Nat) : Name :=
  if k = 0 then name
  else
    let p := claimSplitExt name
    if p.2 = [] then p.1 ++ idxSuffix k
    else p.1 ++ idxSuffix k ++ '.' :: p.2

/-- Stem and extension as the amended claim words them: the last dot begins an
extension only when it is neither the first nor the last character of the
name; otherwise the name has no extension. -/
def amendedSplitExt (name : Name) : Name × Name :=
  match splitLastDot name with
  | some (b, a) => if b ≠ [] ∧ a ≠ [] then (b, a) else (name, [])
  | none => (name, [])

/-- Candidate sequence as the amended claim words it, built from
`amendedSplitExt` in place of the literal last-dot split. -/
def amendedCandidate (name : Name) (k : Nat) : Name :=
  if k = 0 then name
  else
    let p := amendedSplitExt name
    if p.2 = [] then p.1 ++ idxSuffix k
    else p.1 ++ idxSuffix k ++ '.' :: p.2

/-- Scan for the closing bracket of a glob character class: returns the
content before the first `]` and the remainder after it. -/
def scanClose : List Char → Option (List Char × List Char)
  | [] => none
  | ']' :: r => some ([], r)
  | c :: r =>
    match scanClose r with
    | some (st, rest) => some (c :: st, rest)
    | none => none

/-- Parse a glob character class after its opening `[`: an optional leading
`!` negates, a `]` immediately after that is part of the content, and the
class extends to the next `]`. `none` when unterminated, in which case the
`[` is treated literally (as `fnmatch.translate` does). -/
def parseClass (p : List Char) : Option (Bool × List Char × List Char) :=
  match p with
  | '!' :: q =>
    match q with
    | ']' :: r =>
      match scanClose r with
      | some (st, rest) => some (true, ']' :: st, rest)
      | none => none
    | _ =>
      match scanClose q with
      | some (st, rest) => some (true, st, rest)
      | none => none
  | ']' :: r =>
    match scanClose r with
    | some (st, rest) => some (false, ']' :: st, rest)
    | none => none
  | _ =>
    match scanClose p with
    | some (st, rest) => some (false, st, rest)
    | none => none

/-- Items of a character class content: `a-b` is a range (a hyphen first or
last is literal, matching `fnmatch` semantics), any other character stands
for itself. -/
def classItems : List Char → List (Char × Char)
  | a :: '-' :: b :: rest => (a, b) :: classItems rest
  | a :: rest => (a, a) :: classItems rest
  | [] => []

/-- Membership of a character in a (possibly negated) character class. -/
def inClass (neg : Bool) (stuff : List Char) (c : Char) : Bool :=
  let hit := (classItems stuff).any fun r => decide (r.1 ≤ c ∧ c ≤ r.2)
  if neg then !hit else hit

/-- Fuelled shell-glob matcher: `*` matches any run of characters, `?` any
single character, `[...]` a character class, anything else itself; the whole
name must be consumed. Every recursive call strictly decreases
`pattern.length + s.length`, so fuel `pattern.length + s.length + 1` never
runs out. -/
def globMatchF : Nat → List Char → List Char → Bool
  | 0, _, _ => false
  | fuel + 1, p, s =>
    match p, s with
    | [], t => t.isEmpty
    | '*' :: p', t =>
      (globMatchF fuel p' t ||
        match t with
        | [] => false
        | _ :: t' => globMatchF fuel ('*' :: p') t')
    | '?' :: p', t =>
      (match t with
       | [] => false
       | _ :: t' => globMatchF fuel p' t')
    | '[' :: p', t =>
      (match parseClass p' with
       | none =>
         match t with
         | [] => false
         | c :: t' => decide (c = '[') && globMatchF fuel p' t'
       | some (neg, stuff, rest) =>
         match t with
         | [] => false
         | c :: t' => inClass neg stuff c && globMatchF fuel rest t')
    | c :: p', t =>
      (match t with
       | [] => false
       | c' :: t' => decide (c = c') && globMatchF fuel p' t')

/-- Shell-glob matching of a whole filename against a pattern, as
`fnmatch.fnmatch` behaves on a case-sensitive (POSIX) host. -/
def globMatch (pattern s : List Char) : Bool :=
  globMatchF (pattern.length + s.length + 1) pattern s

/-- One console line emitted by `copyfile`: the verb (`Move` when `move` else
`Copy`), the source path (directory components followed by the filename) and
the destination filename. -/
structure Event where
  move : Bool
  src : List Name
  dst : Name
deriving DecidableEq

/-- The mutable world visible to the program: the destination directory as an
association list of filename/content entries (in creation order) and the
console output emitted so far. -/
structure FS where
  dest : List (Name × Content)
  out : List Event
deriving DecidableEq

/-- Existence test `(dst / name).exists()` against the destination listing. -/
def destExists (d : List (Name × Content)) (name : Name) : Bool :=
  d.any fun e => decide (e.1 = name)

/-- First-match content lookup in the destination listing. -/
def lookupC : List (Name × Content) → Name → Option Content
  | [], _ => none
  | e :: t, name => if e.1 = name then some e.2 else lookupC t name

/-- Embedding of `copyfile(src, dst, move, quiet, dryrun)`: returns `False`
when the destination already exists; otherwise prints the action line unless
`quiet`, performs the write unless `dryrun`, and returns `True`. -/
def copyfile (src : List Name) (content : Content) (dst : Name)
    (move quiet dryrun : Bool) (fs : FS) : Bool × FS :=
  if destExists fs.dest dst then (false, fs)
  else
    let fs1 := if quiet then fs else FS.mk fs.dest (fs.out ++ [Event.mk move src dst])
    let fs2 := if dryrun then fs1 else FS.mk (fs1.dest ++ [(dst, content)]) fs1.out
    (true, fs2)

/-- The candidate loop of `rcopy` for one matched file: try
`copyfile` at candidate indices `k, k+1, …` until it returns `True`. The
fuel argument bounds the iterations of the unbounded generator; the loop is
always entered with fuel `fs.dest.length + 1`, which is proven sufficient
below (a free candidate index always exists among the first
`fs.dest.length + 1`). -/
def tryCandidates (move quiet dryrun : Bool) (root : List Name) (fname : Name)
    (content : Content) : FS → Nat → Nat → FS × Bool
  | fs, _, 0 => (fs, false)
  | fs, k, fuel + 1 =>
    let r := copyfile (root ++ [fname]) content (candidate fname k) move quiet dryrun fs
    if r.1 then (r.2, true)
    else tryCandidates move quiet dryrun root fname content r.2 (k + 1) fuel

/-- Processing of one matched file inside `rcopy`: run the candidate loop
starting at index 0, and increment the running count when a transfer
happened. -/
def doFile (move quiet dryrun : Bool) (root : List Name) (f : Name × Content)
    (acc : FS × Nat) : FS × Nat :=
  let r := tryCandidates move quiet dryrun root f.1 f.2 acc.1 0 (acc.1.dest.length + 1)
  (r.1, if r.2 then acc.2 + 1 else acc.2)

/-- Uncurried form of `doFile` over a (directory, file) pair. -/
def doPair (move quiet dryrun : Bool) (acc : FS × Nat)
    (p : List Name × (Name × Content)) : FS × Nat :=
  doFile move quiet dryrun p.1 p.2 acc

/-- Folding `doFile` over a list of matched (directory, file) pairs. -/
def runList (move quiet dryrun : Bool) (l : List (List Name × (Name × Content)))
    (acc : FS × Nat) : FS × Nat :=
  l.foldl (doPair move quiet dryrun) acc

mutual
/-- A source directory: its regular files (name and content, in listing
order) and its subdirectories. -/
inductive DirTree : Type where
  | node : List (Name × Content) → DirList → DirTree
/-- A listing of named subdirectories. -/
inductive DirList : Type where
  | dnil : DirList
  | dcons : Name → DirTree → DirList → DirList
end

mutual
/-- Embedding of `Path.walk(top_down=False)`: yields each directory's
(path, files) entry after all entries of its subdirectories. -/
def walkBU (path : List Name) : DirTree → List (List Name × List (Name × Content))
  | DirTree.node files subs => walkList path subs ++ [(path, files)]
/-- Bottom-up walk of a subdirectory listing, in listing order. -/
def walkList (path : List Name) : DirList → List (List Name × List (Name × Content))
  | DirList.dnil => []
  | DirList.dcons d t rest => walkBU (path ++ [d]) t ++ walkList path rest
end

/-- All (directory, file) pairs that `rcopy` transfers, in processing order:
bottom-up walk, and within each directory the files whose names match the
pattern, in listing order. -/
def matched (pattern : Name) (src : DirTree) : List (List Name × (Name × Content)) :=
  (walkBU [] src).flatMap fun e =>
    (e.2.filter fun f => globMatch pattern f.1).map fun f => (e.1, f)

/-- Embedding of `rcopy(pattern, src, dst, move, quiet, dryrun)`: walk the
source tree bottom-up, filter each directory's files against the pattern,
and for each match run the candidate loop; returns the final world and the
count of files transferred. -/
def rcopy (pattern : Name) (src : DirTree) (move quiet dryrun : Bool)
    (fs0 : FS) : FS × Nat :=
  (walkBU [] src).foldl
    (fun acc e =>
      (e.2.filter fun f => globMatch pattern f.1).foldl
        (fun a f => doFile move quiet dryrun e.1 f a) acc)
    (fs0, 0)

/-- Left fold in the `Except` monad: an error short-circuits the rest of the
list, exactly as an uncaught exception aborts the remaining iterations. -/
def foldlE (f : β → α → Except ε β) : List α → β → Except ε β
  | [], b => Except.ok b
  | a :: l, b =>
    match f b a with
    | Except.error e => Except.error e
    | Except.ok b' => foldlE f l b'

/-- Fallible variant of `copyfile`: `wfail src dst` tells whether the actual
mutating call (`shutil.move` / `shutil.copyfile`) raises for this transfer
(destination directory missing, permission denied, source vanished, …).
The raise happens after the console line is printed and aborts with the
world at that moment; a destination that already exists is reported as
`False` before anything can fail. -/
def copyfileE (wfail : List Name → Name → Bool) (src : List Name) (content : Content)
    (dst : Name) (move quiet dryrun : Bool) (fs : FS) : Except FS (Bool × FS) :=
  if destExists fs.dest dst then Except.ok (false, fs)
  else
    let fs1 := if quiet then fs else FS.mk fs.dest (fs.out ++ [Event.mk move src dst])
    if dryrun then Except.ok (true, fs1)
    else if wfail src dst then Except.error fs1
    else Except.ok (true, FS.mk (fs1.dest ++ [(dst, content)]) fs1.out)

/-- Fallible variant of the candidate loop, propagating a raised error. -/
def tryCandidatesE (wfail : List Name → Name → Bool) (move quiet dryrun : Bool)
    (root : List Name) (fname : Name) (content : Content) :
    FS → Nat → Nat → Except FS (FS × Bool)
  | fs, _, 0 => Except.ok (fs, false)
  | fs, k, fuel + 1 =>
    match copyfileE wfail (root ++ [fname]) content (candidate fname k) move quiet dryrun fs with
    | Except.error e => Except.error e
    | Except.ok (true, fs') => Except.ok (fs', true)
    | Except.ok (false, fs') =>
      tryCandidatesE wfail move quiet dryrun root fname content fs' (k + 1) fuel

/-- Fallible processing of one matched file. -/
def doFileE (wfail : List Name → Name → Bool) (move quiet dryrun : Bool)
    (root : List Name) (f : Name × Content) (acc : FS × Nat) : Except FS (FS × Nat) :=
  match tryCandidatesE wfail move quiet dryrun root f.1 f.2 acc.1 0 (acc.1.dest.length + 1) with
  | Except.error e => Except.error e
  | Except.ok (fs', ok) => Except.ok (fs', if ok then acc.2 + 1 else acc.2)

/-- Uncurried form of `doFileE` over a (directory, file) pair. -/
def doPairE (wfail : List Name → Name → Bool) (move quiet dryrun : Bool)
    (acc : FS × Nat) (p : List Name × (Name × Content)) : Except FS (FS × Nat) :=
  doFileE wfail move quiet dryrun p.1 p.2 acc

/-- Fallible variant of `rcopy`: identical control flow, but a raised
filesystem error aborts the whole run with the world at the failure. -/
def rcopyE (wfail : List Name → Name → Bool) (pattern : Name) (src : DirTree)
    (move quiet dryrun : Bool) (fs0 : FS) : Except FS (FS × Nat) :=
  foldlE
    (fun acc e =>
      foldlE (fun a f => doFileE wfail move quiet dryrun e.1 f a)
        (e.2.filter fun f => globMatch pattern f.1) acc)
    (walkBU [] src) (fs0, 0)

/-- The source tree of the collection scenario: `/src/1/a.txt`,
`/src/2/b.txt`, `/src/3/a.txt`, `/src/4/1/c.txt`, with distinct contents to
track which source lands where. -/
def treeC2 : DirTree :=
  DirTree.node []
    (DirList.dcons ( "1" ).data (DirTree.node [(( "a.txt" ).data, ( "A1" ).data)] DirList.dnil)
    (DirList.dcons ( "2" ).data (DirTree.node [(( "b.txt" ).data, ( "B2" ).data)] DirList.dnil)
    (DirList.dcons ( "3" ).data (DirTree.node [(( "a.txt" ).data, ( "A3" ).data)] DirList.dnil)
    (DirList.dcons ( "4" ).data
      (DirTree.node []
        (DirList.dcons ( "1" ).data
          (DirTree.node [(( "c.txt" ).data, ( "C4" ).data)] DirList.dnil) DirList.dnil))
      DirList.dnil))))

/-- A one-file source tree used by concrete witnesses. -/
def treeW : DirTree :=
  DirTree.node [(( "a.txt" ).data, ( "AW" ).data)] DirList.dnil

/-- A two-file source tree (one file in a subdirectory, one at the root) used
by the error-propagation witness; bottom-up order processes `d/b.txt` first. -/
def treeW2 : DirTree :=
  DirTree.node [(( "a.txt" ).data, ( "AW" ).data)]
    (DirList.dcons ( "d" ).data
      (DirTree.node [(( "b.txt" ).data, ( "BW" ).data)] DirList.dnil) DirList.dnil)

/-- Failure oracle that makes every write of `b.txt` raise, modelling for
instance a permission error on that destination entry. -/
def wfailB (_src : List Name) (dst : Name) : Bool :=
  decide (dst = ( "b.txt" ).data)

end RCopy

namespace RCopy

/-! ### Properties of the name splitting and the candidate generator -/

theorem splitLastDot_eq (n : Name) :
    ∀ b a, splitLastDot n = some (b, a) → n = b ++ '.' :: a := by
  induction n with
  | nil => intro b a h; simp [splitLastDot] at h
  | cons c cs ih =>
    intro b a h
    simp only [splitLastDot] at h
    cases hs : splitLastDot cs with
    | some p =>
      rw [hs] at h
      cases p with
      | mk b' a' =>
        simp at h
        obtain ⟨hb, ha⟩ := h
        subst hb; subst ha
        simpa using ih b' a' hs
    | none =>
      rw [hs] at h
      by_cases hc : c = '.'
      · simp [hc] at h
        obtain ⟨hb, ha⟩ := h
        subst hb; subst ha; simp [hc]
      · simp [hc] at h

theorem pathStem_append_pathSuffix (n : Name) : pathStem n ++ pathSuffix n = n := by
  unfold pathStem pathSuffix
  cases hs : splitLastDot n with
  | none => simp
  | some p =>
    cases p with
    | mk b a =>
      by_cases hc : b ≠ [] ∧ a ≠ []
      · simp [hc]
        exact (splitLastDot_eq n b a hs).symm
      · simp [hc]

theorem candidate_zero (n : Name) : candidate n 0 = n := by
  unfold candidate idxSuffix
  simpa using pathStem_append_pathSuffix n

theorem dval_digitChar : ∀ d : Nat, d < 10 → dval (Nat.digitChar d) = d := by decide

theorem revVal_natToRevDigits : ∀ fuel k, k ≤ fuel → revVal (natToRevDigits fuel k) = k := by
  intro fuel
  induction fuel with
  | zero => intro k hk; interval_cases k; simp [natToRevDigits, revVal]
  | succ f ih =>
    intro k hk
    by_cases h0 : k = 0
    · subst h0; simp [natToRevDigits, revVal]
    · have hdiv : k / 10 ≤ f := by omega
      have hmod : k % 10 < 10 := by omega
      simp only [natToRevDigits, h0, if_false, revVal]
      rw [ih (k / 10) hdiv, dval_digitChar (k % 10) hmod]
      omega

theorem natChars_inj : ∀ j k, natChars j = natChars k → j = k := by
  have key : ∀ m, m ≠ 0 → revVal ((natChars m).reverse) = m := by
    intro m hm
    unfold natChars
    simp only [hm, if_false, List.reverse_reverse]
    exact revVal_natToRevDigits m m le_rfl
  intro j k h
  by_cases hj : j = 0
  · by_cases hk : k = 0
    · omega
    · exfalso
      have : revVal ((natChars k).reverse) = k := key k hk
      rw [← h] at this
      subst hj
      simp [natChars, revVal, dval] at this
      omega
  · by_cases hk : k = 0
    · exfalso
      have : revVal ((natChars j).reverse) = j := key j hj
      rw [h] at this
      subst hk
      simp [natChars, revVal, dval] at this
      omega
    · have h1 := key j hj
      have h2 := key k hk
      rw [h] at h1
      omega

theorem idxSuffix_inj : ∀ j k, idxSuffix j = idxSuffix k → j = k := by
  intro j k h
  unfold idxSuffix at h
  by_cases hj : j = 0
  · by_cases hk : k = 0
    · omega
    · simp [hj, hk] at h
  · by_cases hk : k = 0
    · simp [hj, hk] at h
    · simp only [hj, hk, if_false, List.cons.injEq, true_and] at h
      have h2 : natChars j = natChars k := by
        have := congrArg List.reverse h
        simpa [List.reverse_append] using this
      exact natChars_inj j k h2

theorem candidate_inj (name : Name) : ∀ j k, candidate name j = candidate name k → j = k := by
  intro j k h
  unfold candidate at h
  rw [List.append_assoc, List.append_assoc] at h
  have h1 : idxSuffix j ++ pathSuffix name = idxSuffix k ++ pathSuffix name :=
    List.append_cancel_left h
  exact idxSuffix_inj j k (List.append_cancel_right h1)

/-- Claim C1 as the spec words it is refuted by a dotfile: for `.hidden`
pathlib yields stem `.hidden` and no suffix, so the code inserts the index
after the whole name while the claim's literal last-dot split would insert
it before `.hidden`. -/
theorem claim1_counterexample :
    candidate ( ".hidden" ).data 1 ≠ claimCandidate ( ".hidden" ).data 1 := by decide

/-- Claim C1, amended: the candidate at index 0 is the name unchanged, and at
index `k ≥ 1` it is `s(k)e` — with `(k)` placed immediately before the
extension separator — where stem and extension split at the last dot only
when that dot is neither the first nor the last character of the name
(otherwise the name has no extension and the candidate is `f(k)`). -/
theorem claim1_amended (name : Name) (k : Nat) :
    candidate name k = amendedCandidate name k := by
  unfold amendedCandidate
  by_cases h0 : k = 0
  · simp [h0, candidate_zero]
  · simp only [h0, if_false]
    unfold candidate pathStem pathSuffix amendedSplitExt
    cases hs : splitLastDot name with
    | none => simp
    | some p =>
      cases p with
      | mk b a =>
        by_cases hc : b ≠ [] ∧ a ≠ []
        · have ha : a ≠ [] := hc.2
          simp [hc, ha]
        · simp [hc]

theorem fwiYields_none : ∀ k, fwiYields none k = true := by
  intro k
  induction k with
  | zero => simp [fwiYields]
  | succ k ih => simp [fwiYields, ih]

theorem fwiYields_some (m : Nat) : ∀ k, fwiYields (some (m : Int)) k = decide (k ≤ m) := by
  intro k
  induction k with
  | zero => simp [fwiYields]
  | succ k ih =>
    simp only [fwiYields, ih]
    by_cases h : k + 1 ≤ m
    · have h1 : k ≤ m := by omega
      have h2 : (k : Int) ≠ (m : Int) := by
        intro hc
        omega
      simp [h, h1, h2]
    · by_cases h1 : k ≤ m
      · have h2 : (k : Int) = (m : Int) := by omega
        simp [h, h1, h2]
      · simp [h, h1]

theorem filterMap_eq_map_of_mem {α β : Type} {g : α → Option β} {f : α → β} :
    ∀ l : List α, (∀ x ∈ l, g x = some (f x)) → l.filterMap g = l.map f := by
  intro l
  induction l with
  | nil => simp
  | cons a t ih =>
    intro h
    rw [List.filterMap_cons, h a (by simp), List.map_cons,
      ih fun x hx => h x (by simp [hx])]

/-- Claim C7: for every input name the generator is infinite when no
`max_index` is supplied (every yield position produces a value), and with a
bound `max_index = m` it yields exactly at the positions `0 … m` — the
element at index `m` inclusive is produced, nothing afterwards — for a total
of exactly `m + 1` elements. -/
theorem claim7_sequence_length (name : Name) :
    (∀ k : Nat, filenames_with_index name none k = some (candidate name k))
    ∧ ∀ m : Nat,
        (∀ k : Nat, k ≤ m → filenames_with_index name (some (m : Int)) k = some (candidate name k))
        ∧ (∀ k : Nat, m < k → filenames_with_index name (some (m : Int)) k = none)
        ∧ ((List.range (m + 1)).filterMap (filenames_with_index name (some (m : Int)))).length
            = m + 1 := by
  constructor
  · intro k
    simp [filenames_with_index, fwiYields_none]
  · intro m
    refine ⟨?_, ?_, ?_⟩
    · intro k hk
      simp [filenames_with_index, fwiYields_some, hk]
    · intro k hk
      have : ¬ k ≤ m := by omega
      simp [filenames_with_index, fwiYields_some, this]
    · rw [filterMap_eq_map_of_mem (f := candidate name) (List.range (m + 1))]
      · simp
      · intro x hx
        have hxm : x ≤ m := by
          have := List.mem_range.mp hx
          omega
        simp [filenames_with_index, fwiYields_some, hxm]

theorem claim7_sequence_length_witness :
    filenames_with_index ( "abc.txt" ).data none 5 = some (candidate ( "abc.txt" ).data 5)
    ∧ filenames_with_index ( "abc.txt" ).data (some ((2 : Nat) : Int)) 2
        = some (candidate ( "abc.txt" ).data 2)
    ∧ filenames_with_index ( "abc.txt" ).data (some ((2 : Nat) : Int)) 3 = none
    ∧ ((List.range 3).filterMap
        (filenames_with_index ( "abc.txt" ).data (some ((2 : Nat) : Int)))).length = 3 :=
  ⟨(claim7_sequence_length _).1 5,
   ((claim7_sequence_length _).2 2).1 2 (by decide),
   ((claim7_sequence_length _).2 2).2.1 3 (by decide),
   ((claim7_sequence_length _).2 2).2.2⟩

/-- Claim C8: for a fixed input name the candidate sequence is deterministic —
the value yielded at position `k` is always exactly `candidate name k` — and
no two candidates at distinct indices are equal. -/
theorem claim8_deterministic_distinct (name : Name) :
    (∀ k : Nat, filenames_with_index name none k = some (candidate name k))
    ∧ ∀ j k : Nat, j ≠ k → candidate name j ≠ candidate name k := by
  refine ⟨fun k => by simp [filenames_with_index, fwiYields_none], ?_⟩
  intro j k hjk hc
  exact hjk (candidate_inj name j k hc)

theorem claim8_deterministic_distinct_witness :
    candidate ( "a.txt" ).data 1 ≠ candidate ( "a.txt" ).data 2 :=
  (claim8_deterministic_distinct _).2 1 2 (by decide)

/-! ### Properties of the destination state and the transfer loop -/

theorem destExists_iff (d : List (Name × Content)) (nm : Name) :
    destExists d nm = true ↔ nm ∈ d.map Prod.fst := by
  simp [destExists, List.any_eq_true, List.mem_map]

theorem exists_free_candidate (d : List (Name × Content)) (name : Name) :
    ∃ k, k ≤ d.length ∧ destExists d (candidate name k) = false := by
  by_contra hc
  push_neg at hc
  have hall : ∀ k, k ≤ d.length → candidate name k ∈ d.map Prod.fst := by
    intro k hk
    have hne := hc k hk
    have hb : destExists d (candidate name k) = true := by
      cases h : destExists d (candidate name k)
      · exact absurd h hne
      · rfl
    exact (destExists_iff d (candidate name k)).mp hb
  have hsub : (Finset.range (d.length + 1)).image (candidate name)
      ⊆ (d.map Prod.fst).toFinset := by
    intro x hx
    simp only [Finset.mem_image, Finset.mem_range] at hx
    obtain ⟨k, hk, hkx⟩ := hx
    rw [List.mem_toFinset, ← hkx]
    exact hall k (by omega)
  have hcard1 : ((Finset.range (d.length + 1)).image (candidate name)).card
      = d.length + 1 := by
    rw [Finset.card_image_of_injective _ fun a b h => candidate_inj name a b h]
    simp
  have hcard2 := Finset.card_le_card hsub
  have hcard3 : (d.map Prod.fst).toFinset.card ≤ d.length := by
    calc (d.map Prod.fst).toFinset.card ≤ (d.map Prod.fst).length := List.toFinset_card_le _
    _ = d.length := by simp
  omega

theorem copyfile_of_exists (src : List Name) (content : Content) (dst : Name)
    (move quiet dryrun : Bool) (fs : FS) (h : destExists fs.dest dst = true) :
    copyfile src content dst move quiet dryrun fs = (false, fs) := by
  simp [copyfile, h]

theorem copyfile_of_free (src : List Name) (content : Content) (dst : Name)
    (move quiet dryrun : Bool) (fs : FS) (h : destExists fs.dest dst = false) :
    copyfile src content dst move quiet dryrun fs =
      (true, FS.mk (if dryrun then fs.dest else fs.dest ++ [(dst, content)])
        (if quiet then fs.out else fs.out ++ [Event.mk move src dst])) := by
  simp only [copyfile, h, Bool.false_eq_true, if_false]
  cases quiet <;> cases dryrun <;> simp

theorem tryCandidates_run (move quiet dryrun : Bool) (root : List Name) (fname : Name)
    (content : Content) :
    ∀ fuel k0 fs,
      (∃ j, k0 ≤ j ∧ j < k0 + fuel ∧ destExists fs.dest (candidate fname j) = false) →
      ∃ kf, destExists fs.dest (candidate fname kf) = false ∧
        tryCandidates move quiet dryrun root fname content fs k0 fuel =
          ((copyfile (root ++ [fname]) content (candidate fname kf) move quiet dryrun fs).2,
            true) := by
  intro fuel
  induction fuel with
  | zero =>
    intro k0 fs h
    obtain ⟨j, h1, h2, _⟩ := h
    omega
  | succ f ih =>
    intro k0 fs h
    cases hE : destExists fs.dest (candidate fname k0) with
    | false =>
      refine ⟨k0, hE, ?_⟩
      simp only [tryCandidates]
      rw [copyfile_of_free _ _ _ _ _ _ _ hE]
      simp
    | true =>
      obtain ⟨j, h1, h2, h3⟩ := h
      have hj : j ≠ k0 := by
        intro hc
        rw [hc, hE] at h3
        exact Bool.true_eq_false.mp h3
      simp only [tryCandidates]
      rw [copyfile_of_exists _ _ _ _ _ _ _ hE]
      exact ih (k0 + 1) fs ⟨j, by omega, by omega, h3⟩

theorem doFile_shape (move quiet dryrun : Bool) (root : List Name) (f : Name × Content)
    (acc : FS × Nat) :
    ∃ kf, destExists acc.1.dest (candidate f.1 kf) = false ∧
      doFile move quiet dryrun root f acc =
        (FS.mk (if dryrun then acc.1.dest else acc.1.dest ++ [(candidate f.1 kf, f.2)])
          (if quiet then acc.1.out
           else acc.1.out ++ [Event.mk move (root ++ [f.1]) (candidate f.1 kf)]),
         acc.2 + 1) := by
  obtain ⟨j, hj1, hj2⟩ := exists_free_candidate acc.1.dest f.1
  obtain ⟨kf, hkf, heq⟩ :=
    tryCandidates_run move quiet dryrun root f.1 f.2 (acc.1.dest.length + 1) 0 acc.1
      ⟨j, by omega, by omega, hj2⟩
  refine ⟨kf, hkf, ?_⟩
  simp only [doFile, heq]
  rw [copyfile_of_free _ _ _ _ _ _ _ hkf]
  simp

theorem doFile_count (move quiet dryrun : Bool) (root : List Name) (f : Name × Content)
    (acc : FS × Nat) : (doFile move quiet dryrun root f acc).2 = acc.2 + 1 := by
  obtain ⟨kf, _, heq⟩ := doFile_shape move quiet dryrun root f acc
  rw [heq]

theorem runList_count (move quiet dryrun : Bool) :
    ∀ (l : List (List Name × (Name × Content))) (acc : FS × Nat),
      (runList move quiet dryrun l acc).2 = acc.2 + l.length := by
  intro l
  induction l with
  | nil => intro acc; simp [runList]
  | cons p t ih =>
    intro acc
    have hstep : runList move quiet dryrun (p :: t) acc
        = runList move quiet dryrun t (doPair move quiet dryrun acc p) := rfl
    rw [hstep, ih]
    have : (doPair move quiet dryrun acc p).2 = acc.2 + 1 :=
      doFile_count move quiet dryrun p.1 p.2 acc
    rw [this]
    simp
    omega

theorem runList_dest_dry (move quiet : Bool) :
    ∀ (l : List (List Name × (Name × Content))) (acc : FS × Nat),
      (runList move quiet true l acc).1.dest = acc.1.dest := by
  intro l
  induction l with
  | nil => intro acc; simp [runList]
  | cons p t ih =>
    intro acc
    have hstep : runList move quiet true (p :: t) acc
        = runList move quiet true t (doPair move quiet true acc p) := rfl
    rw [hstep, ih]
    obtain ⟨kf, _, heq⟩ := doFile_shape move quiet true p.1 p.2 acc
    show (doFile move quiet true p.1 p.2 acc).1.dest = acc.1.dest
    rw [heq]
    simp

theorem runList_dest_extends (move quiet dryrun : Bool) :
    ∀ (l : List (List Name × (Name × Content))) (acc : FS × Nat),
      acc.1.dest <+: (runList move quiet dryrun l acc).1.dest := by
  intro l
  induction l with
  | nil => intro acc; simp [runList]
  | cons p t ih =>
    intro acc
    have hstep : runList move quiet dryrun (p :: t) acc
        = runList move quiet dryrun t (doPair move quiet dryrun acc p) := rfl
    rw [hstep]
    refine List.IsPrefix.trans ?_ (ih (doPair move quiet dryrun acc p))
    obtain ⟨kf, _, heq⟩ := doFile_shape move quiet dryrun p.1 p.2 acc
    show acc.1.dest <+: (doFile move quiet dryrun p.1 p.2 acc).1.dest
    rw [heq]
    cases dryrun <;> simp

theorem runList_nodup (move quiet dryrun : Bool) :
    ∀ (l : List (List Name × (Name × Content))) (acc : FS × Nat),
      (acc.1.dest.map Prod.fst).Nodup →
      ((runList move quiet dryrun l acc).1.dest.map Prod.fst).Nodup := by
  intro l
  induction l with
  | nil => intro acc h; simpa [runList] using h
  | cons p t ih =>
    intro acc h
    have hstep : runList move quiet dryrun (p :: t) acc
        = runList move quiet dryrun t (doPair move quiet dryrun acc p) := rfl
    rw [hstep]
    apply ih
    obtain ⟨kf, hkf, heq⟩ := doFile_shape move quiet dryrun p.1 p.2 acc
    show (((doFile move quiet dryrun p.1 p.2 acc).1.dest).map Prod.fst).Nodup
    rw [heq]
    cases dryrun with
    | true => simpa using h
    | false =>
      simp only [List.map_append]
      have hnm : candidate p.2.1 kf ∉ acc.1.dest.map Prod.fst := by
        intro hm
        have := (destExists_iff acc.1.dest (candidate p.2.1 kf)).mpr hm
        rw [hkf] at this
        exact Bool.false_eq_true.mp this
      simp [List.nodup_append, h, hnm]

theorem lookupC_append (d t : List (Name × Content)) (nm : Name) (c : Content)
    (h : lookupC d nm = some c) : lookupC (d ++ t) nm = some c := by
  induction d with
  | nil => simp [lookupC] at h
  | cons e r ih =>
    by_cases he : e.1 = nm
    · simp only [lookupC, he, if_true] at h
      simp [lookupC, he, h]
    · simp only [lookupC, he, if_false] at h
      simpa [lookupC, he] using ih h

theorem lookupC_of_isPre (d1 d2 : List (Name × Content)) (nm : Name) (c : Content)
    (hp : d1 <+: d2) (h : lookupC d1 nm = some c) : lookupC d2 nm = some c := by
  obtain ⟨t, ht⟩ := hp
  rw [← ht]
  exact lookupC_append d1 t nm c h

theorem runList_dry_out (move : Bool) :
    ∀ (l : List (List Name × (Name × Content))) (out0 : List Event) (c : Nat),
      runList move false true l (FS.mk [] out0, c) =
        (FS.mk []
          (out0 ++ l.map fun p => Event.mk move (p.1 ++ [p.2.1]) (candidate p.2.1 0)),
         c + l.length) := by
  intro l
  induction l with
  | nil => intro out0 c; simp [runList]
  | cons p t ih =>
    intro out0 c
    have hstep : runList move false true (p :: t) (FS.mk [] out0, c)
        = runList move false true t (doPair move false true (FS.mk [] out0, c) p) := rfl
    have hdo : doPair move false true (FS.mk [] out0, c) p
        = (FS.mk [] (out0 ++ [Event.mk move (p.1 ++ [p.2.1]) (candidate p.2.1 0)]), c + 1) := by
      show doFile move false true p.1 p.2 (FS.mk [] out0, c) = _
      simp [doFile, tryCandidates, copyfile, destExists]
    rw [hstep, hdo, ih]
    simp
    omega

theorem foldl_nested_eq_runList (move quiet dryrun : Bool) (pattern : Name) :
    ∀ (ws : List (List Name × List (Name × Content))) (acc : FS × Nat),
      ws.foldl
        (fun acc e =>
          (e.2.filter fun f => globMatch pattern f.1).foldl
            (fun a f => doFile move quiet dryrun e.1 f a) acc) acc
      = runList move quiet dryrun
          (ws.flatMap fun e =>
            (e.2.filter fun f => globMatch pattern f.1).map fun f => (e.1, f)) acc := by
  intro ws
  induction ws with
  | nil => intro acc; simp [runList]
  | cons e es ih =>
    intro acc
    rw [List.foldl_cons, List.flatMap_cons, ih]
    unfold runList
    rw [List.foldl_append, List.foldl_map]
    rfl

theorem rcopy_eq_runList (pattern : Name) (src : DirTree) (move quiet dryrun : Bool)
    (fs0 : FS) :
    rcopy pattern src move quiet dryrun fs0
      = runList move quiet dryrun (matched pattern src) (fs0, 0) := by
  unfold rcopy matched
  exact foldl_nested_eq_runList move quiet dryrun pattern (walkBU [] src) (fs0, 0)

/-! ### The collection scenario and the global claims about rcopy -/

/-- Claim C2: on the source tree `/src/1/a.txt`, `/src/2/b.txt`,
`/src/3/a.txt`, `/src/4/1/c.txt` with pattern `*.txt` and an empty
destination, `rcopy` (copy mode, real run) returns count 4 and the
destination ends up containing exactly `a.txt`, `b.txt`, `a(1).txt`,
`c.txt`, the two `a.txt` sources landing at `a.txt` (from `1/`, first in
bottom-up order) and `a(1).txt` (from `3/`). -/
theorem claim2_scenario :
    (rcopy ( "*.txt" ).data treeC2 false false false (FS.mk [] [])).2 = 4
    ∧ (rcopy ( "*.txt" ).data treeC2 false false false (FS.mk [] [])).1.dest =
        [(( "a.txt" ).data, ( "A1" ).data), (( "b.txt" ).data, ( "B2" ).data),
         (( "a(1).txt" ).data, ( "A3" ).data), (( "c.txt" ).data, ( "C4" ).data)] :=
  ⟨by decide, by decide⟩

/-- Claim C3: a real (non-dry) run never overwrites the destination: the
pre-existing listing is a prefix of the final one (every old entry keeps its
content, as the lookup preservation makes explicit), and since every write
targets a name that is absent at the moment it happens, distinctness of
destination names is preserved. -/
theorem claim3_no_overwrite (pattern : Name) (src : DirTree) (move quiet : Bool)
    (d0 : List (Name × Content)) (out0 : List Event)
    (hnd : (d0.map Prod.fst).Nodup) :
    d0 <+: (rcopy pattern src move quiet false (FS.mk d0 out0)).1.dest
    ∧ (((rcopy pattern src move quiet false (FS.mk d0 out0)).1.dest).map Prod.fst).Nodup
    ∧ ∀ nm c, lookupC d0 nm = some c →
        lookupC (rcopy pattern src move quiet false (FS.mk d0 out0)).1.dest nm = some c := by
  rw [rcopy_eq_runList]
  refine ⟨runList_dest_extends move quiet false (matched pattern src) (FS.mk d0 out0, 0),
    runList_nodup move quiet false (matched pattern src) (FS.mk d0 out0, 0) hnd, ?_⟩
  intro nm c h
  exact lookupC_of_isPre d0 _ nm c
    (runList_dest_extends move quiet false (matched pattern src) (FS.mk d0 out0, 0)) h

theorem claim3_no_overwrite_witness :
    [(( "a.txt" ).data, ( "X0" ).data)] <+:
      (rcopy ( "*.txt" ).data treeW false false false
        (FS.mk [(( "a.txt" ).data, ( "X0" ).data)] [])).1.dest
    ∧ lookupC (rcopy ( "*.txt" ).data treeW false false false
        (FS.mk [(( "a.txt" ).data, ( "X0" ).data)] [])).1.dest ( "a.txt" ).data
        = some (( "X0" ).data) :=
  ⟨(claim3_no_overwrite _ _ _ _ _ _ (by decide)).1,
   (claim3_no_overwrite _ _ _ _ _ _ (by decide)).2.2 _ _ (by decide)⟩

/-- Claim C4: a dry run mutates nothing — the destination listing after
`rcopy` with `dryrun` is exactly the initial one — and returns the same
count as the real run started from the same destination state. -/
theorem claim4_dryrun (pattern : Name) (src : DirTree) (move quiet : Bool)
    (d0 : List (Name × Content)) (out0 : List Event) :
    (rcopy pattern src move quiet true (FS.mk d0 out0)).1.dest = d0
    ∧ (rcopy pattern src move quiet true (FS.mk d0 out0)).2
        = (rcopy pattern src move quiet false (FS.mk d0 out0)).2 := by
  constructor
  · rw [rcopy_eq_runList]
    exact runList_dest_dry move quiet (matched pattern src) (FS.mk d0 out0, 0)
  · rw [rcopy_eq_runList, rcopy_eq_runList, runList_count, runList_count]

theorem flatMap_matched_nil (pattern : Name)
    (ws : List (List Name × List (Name × Content)))
    (h : ∀ e ∈ ws, ∀ f ∈ e.2, globMatch pattern f.1 = false) :
    (ws.flatMap fun e =>
      (e.2.filter fun f => globMatch pattern f.1).map fun f => (e.1, f)) = [] := by
  induction ws with
  | nil => simp
  | cons e es ih =>
    rw [List.flatMap_cons]
    have h1 : e.2.filter (fun f => globMatch pattern f.1) = [] := by
      rw [List.filter_eq_nil_iff]
      intro a ha
      simp [h e (by simp) a ha]
    rw [h1]
    simpa using ih fun e' he' => h e' (by simp [he'])

/-- Claim C5: when the pattern matches no file of the walked tree, `rcopy`
returns count 0, leaves the destination untouched and emits no console
output. -/
theorem claim5_no_match (pattern : Name) (src : DirTree) (move quiet dryrun : Bool)
    (d0 : List (Name × Content))
    (h : ∀ e ∈ walkBU [] src, ∀ f ∈ e.2, globMatch pattern f.1 = false) :
    rcopy pattern src move quiet dryrun (FS.mk d0 []) = (FS.mk d0 [], 0) := by
  have hm : matched pattern src = [] := by
    unfold matched
    exact flatMap_matched_nil pattern (walkBU [] src) h
  rw [rcopy_eq_runList, hm]
  rfl

theorem claim5_no_match_witness :
    rcopy ( "*.md" ).data treeW false false false (FS.mk [] []) = (FS.mk [] [], 0) :=
  claim5_no_match ( "*.md" ).data treeW false false false [] (by decide)

/-- Claim C9: under a dry run against an initially empty destination (quiet
off), the destination stays empty, so the existence check never sees a
collision: every matched file is counted and its console line reports the
candidate at index 0 — and the index-0 candidate is the unmodified source
filename, so two matched files with equal names are reported with the same
unsuffixed destination name. -/
theorem claim9_dryrun_index_zero (pattern : Name) (src : DirTree) (move : Bool) :
    rcopy pattern src move false true (FS.mk [] []) =
      (FS.mk []
        ((matched pattern src).map fun p =>
          Event.mk move (p.1 ++ [p.2.1]) (candidate p.2.1 0)),
       (matched pattern src).length)
    ∧ ∀ nm : Name, candidate nm 0 = nm := by
  constructor
  · rw [rcopy_eq_runList]
    simpa using runList_dry_out move (matched pattern src) [] 0
  · exact candidate_zero

/-- Claim C10: for every destination state there is a free candidate index
within the first `dest.length + 1` indices, so the candidate loop run with
that much fuel succeeds (returns `true`) and processing the file increments
the count by exactly one — the search always terminates although the
underlying generator is unbounded. -/
theorem claim10_loop_terminates (fs : FS) (name : Name) :
    (∃ k, k ≤ fs.dest.length ∧ destExists fs.dest (candidate name k) = false)
    ∧ ∀ (move quiet dryrun : Bool) (root : List Name) (content : Content) (c : Nat),
        (tryCandidates move quiet dryrun root name content fs 0 (fs.dest.length + 1)).2 = true
        ∧ (doFile move quiet dryrun root (name, content) (fs, c)).2 = c + 1 := by
  refine ⟨exists_free_candidate fs.dest name, ?_⟩
  intro move quiet dryrun root content c
  constructor
  · obtain ⟨j, hj1, hj2⟩ := exists_free_candidate fs.dest name
    obtain ⟨kf, _, heq⟩ := tryCandidates_run move quiet dryrun root name content
      (fs.dest.length + 1) 0 fs ⟨j, by omega, by omega, hj2⟩
    rw [heq]
  · exact doFile_count move quiet dryrun root (name, content) (fs, c)

/-! ### Error propagation through the fallible run -/

theorem foldlE_append {α β ε : Type} (g : β → α → Except ε β) :
    ∀ (l1 l2 : List α) (b : β),
      foldlE g (l1 ++ l2) b =
        match foldlE g l1 b with
        | Except.error e => Except.error e
        | Except.ok b1 => foldlE g l2 b1 := by
  intro l1
  induction l1 with
  | nil => intro l2 b; simp [foldlE]
  | cons a t ih =>
    intro l2 b
    rw [List.cons_append]
    simp only [foldlE]
    cases hg : g b a with
    | error e => rfl
    | ok b' => exact ih l2 b'

theorem foldlE_map {α α' β ε : Type} (g : β → α → Except ε β) (h : α' → α) :
    ∀ (l : List α') (b : β), foldlE g (l.map h) b = foldlE (fun b a => g b (h a)) l b := by
  intro l
  induction l with
  | nil => intro b; rfl
  | cons a t ih =>
    intro b
    simp only [List.map_cons, foldlE]
    cases hg : g b (h a) with
    | error e => rfl
    | ok b' => exact ih b'

theorem foldlE_error_after {α β ε : Type} (g : β → α → Except ε β) :
    ∀ (l1 : List α) (p : α) (l2 : List α) (b b1 : β) (e : ε),
      foldlE g l1 b = Except.ok b1 → g b1 p = Except.error e →
      foldlE g (l1 ++ p :: l2) b = Except.error e := by
  intro l1
  induction l1 with
  | nil =>
    intro p l2 b b1 e h1 h2
    simp only [foldlE] at h1
    cases h1
    simp [foldlE, h2]
  | cons a t ih =>
    intro p l2 b b1 e h1 h2
    rw [List.cons_append]
    simp only [foldlE] at h1 ⊢
    cases hg : g b a with
    | error e' => rw [hg] at h1; cases h1
    | ok b' =>
      rw [hg] at h1
      exact ih p l2 b' b1 e h1 h2

theorem foldlE_nested_eq (wfail : List Name → Name → Bool) (move quiet dryrun : Bool)
    (pattern : Name) :
    ∀ (ws : List (List Name × List (Name × Content))) (acc : FS × Nat),
      foldlE
        (fun acc e =>
          foldlE (fun a f => doFileE wfail move quiet dryrun e.1 f a)
            (e.2.filter fun f => globMatch pattern f.1) acc) ws acc
      = foldlE (doPairE wfail move quiet dryrun)
          (ws.flatMap fun e =>
            (e.2.filter fun f => globMatch pattern f.1).map fun f => (e.1, f)) acc := by
  intro ws
  induction ws with
  | nil => intro acc; rfl
  | cons e es ih =>
    intro acc
    rw [List.flatMap_cons, foldlE_append]
    simp only [foldlE]
    rw [foldlE_map]
    have hinner :
        foldlE (fun b f => doPairE wfail move quiet dryrun b (e.1, f))
          (e.2.filter fun f => globMatch pattern f.1) acc
        = foldlE (fun a f => doFileE wfail move quiet dryrun e.1 f a)
            (e.2.filter fun f => globMatch pattern f.1) acc := rfl
    rw [hinner]
    cases hg : foldlE (fun a f => doFileE wfail move quiet dryrun e.1 f a)
        (e.2.filter fun f => globMatch pattern f.1) acc with
    | error e' => rfl
    | ok b' => exact ih b'

theorem rcopyE_eq_foldlE (wfail : List Name → Name → Bool) (pattern : Name) (src : DirTree)
    (move quiet dryrun : Bool) (fs0 : FS) :
    rcopyE wfail pattern src move quiet dryrun fs0
      = foldlE (doPairE wfail move quiet dryrun) (matched pattern src) (fs0, 0) := by
  unfold rcopyE matched
  exact foldlE_nested_eq wfail move quiet dryrun pattern (walkBU [] src) (fs0, 0)

theorem copyfileE_nofail (wfail : List Name → Name → Bool) (src : List Name)
    (content : Content) (dst : Name) (move quiet dryrun : Bool) (fs : FS)
    (h : ∀ r n, wfail r n = false) :
    copyfileE wfail src content dst move quiet dryrun fs
      = Except.ok (copyfile src content dst move quiet dryrun fs) := by
  cases hE : destExists fs.dest dst with
  | true => simp [copyfileE, copyfile, hE]
  | false => cases dryrun <;> simp [copyfileE, copyfile, hE, h]

theorem tryCandidatesE_nofail (wfail : List Name → Name → Bool) (move quiet dryrun : Bool)
    (root : List Name) (fname : Name) (content : Content)
    (h : ∀ r n, wfail r n = false) :
    ∀ (fuel : Nat) (k : Nat) (fs : FS),
      tryCandidatesE wfail move quiet dryrun root fname content fs k fuel
        = Except.ok (tryCandidates move quiet dryrun root fname content fs k fuel) := by
  intro fuel
  induction fuel with
  | zero => intro k fs; rfl
  | succ f ih =>
    intro k fs
    simp only [tryCandidatesE, tryCandidates]
    rw [copyfileE_nofail wfail _ _ _ _ _ _ _ h]
    cases hr : copyfile (root ++ [fname]) content (candidate fname k) move quiet dryrun fs with
    | mk ok fs' =>
      cases ok with
      | true => rfl
      | false => exact ih (k + 1) fs'

theorem doFileE_nofail (wfail : List Name → Name → Bool) (move quiet dryrun : Bool)
    (root : List Name) (f : Name × Content) (acc : FS × Nat)
    (h : ∀ r n, wfail r n = false) :
    doFileE wfail move quiet dryrun root f acc
      = Except.ok (doFile move quiet dryrun root f acc) := by
  simp only [doFileE, doFile]
  rw [tryCandidatesE_nofail wfail move quiet dryrun root f.1 f.2 h]

theorem foldlE_ok_of_ok {α β ε : Type} (g : β → α → Except ε β) (g' : β → α → β)
    (hg : ∀ b a, g b a = Except.ok (g' b a)) :
    ∀ (l : List α) (b : β), foldlE g l b = Except.ok (l.foldl g' b) := by
  intro l
  induction l with
  | nil => intro b; rfl
  | cons a t ih =>
    intro b
    simp only [foldlE, List.foldl_cons]
    rw [hg b a]
    exact ih (g' b a)

/-- Claim C6: filesystem errors are not recovered while collisions are.
First, a candidate that already exists is handled locally: `copyfileE`
reports `False` with the world unchanged and can never raise, whatever the
failure oracle says. Second, if the matched files decompose as
`l1 ++ p :: l2` and the transfer of `p` raises after the files of `l1` were
processed, the whole run aborts with exactly the world at the raise — the
files of `l2` are never processed. Third, with an oracle under which no
write fails, the fallible run returns precisely the infallible `rcopy`
result. -/
theorem claim6_error_propagation :
    (∀ (wfail : List Name → Name → Bool) (src : List Name) (content : Content) (dst : Name)
        (move quiet dryrun : Bool) (fs : FS), destExists fs.dest dst = true →
        copyfileE wfail src content dst move quiet dryrun fs = Except.ok (false, fs))
    ∧ (∀ (wfail : List Name → Name → Bool) (pattern : Name) (src : DirTree)
        (move quiet dryrun : Bool) (fs0 : FS)
        (l1 : List (List Name × (Name × Content))) (p : List Name × (Name × Content))
        (l2 : List (List Name × (Name × Content))) (acc1 : FS × Nat) (efs : FS),
        matched pattern src = l1 ++ p :: l2 →
        foldlE (doPairE wfail move quiet dryrun) l1 (fs0, 0) = Except.ok acc1 →
        doPairE wfail move quiet dryrun acc1 p = Except.error efs →
        rcopyE wfail pattern src move quiet dryrun fs0 = Except.error efs)
    ∧ (∀ (wfail : List Name → Name → Bool) (pattern : Name) (src : DirTree)
        (move quiet dryrun : Bool) (fs0 : FS), (∀ r n, wfail r n = false) →
        rcopyE wfail pattern src move quiet dryrun fs0
          = Except.ok (rcopy pattern src move quiet dryrun fs0)) := by
  refine ⟨?_, ?_, ?_⟩
  · intro wfail src content dst move quiet dryrun fs hE
    simp [copyfileE, hE]
  · intro wfail pattern src move quiet dryrun fs0 l1 p l2 acc1 efs hm h1 h2
    rw [rcopyE_eq_foldlE, hm]
    exact foldlE_error_after _ l1 p l2 (fs0, 0) acc1 efs h1 h2
  · intro wfail pattern src move quiet dryrun fs0 h
    rw [rcopyE_eq_foldlE, rcopy_eq_runList]
    exact foldlE_ok_of_ok (doPairE wfail move quiet dryrun) (doPair move quiet dryrun)
      (fun b a => doFileE_nofail wfail move quiet dryrun a.1 a.2 b h)
      (matched pattern src) (fs0, 0)

theorem claim6_error_propagation_witness :
    copyfileE wfailB [( "d" ).data] ( "BW" ).data ( "b.txt" ).data false false false
        (FS.mk [(( "b.txt" ).data, ( "Z" ).data)] [])
      = Except.ok (false, FS.mk [(( "b.txt" ).data, ( "Z" ).data)] [])
    ∧ rcopyE wfailB ( "*.txt" ).data treeW2 false false false (FS.mk [] [])
      = Except.error (FS.mk []
          [Event.mk false [( "d" ).data, ( "b.txt" ).data] ( "b.txt" ).data])
    ∧ rcopyE (fun _ _ => false) ( "*.txt" ).data treeW false false false (FS.mk [] [])
      = Except.ok (rcopy ( "*.txt" ).data treeW false false false (FS.mk [] [])) :=
  ⟨claim6_error_propagation.1 wfailB [( "d" ).data] ( "BW" ).data ( "b.txt" ).data
      false false false (FS.mk [(( "b.txt" ).data, ( "Z" ).data)] []) (by decide),
   claim6_error_propagation.2.1 wfailB ( "*.txt" ).data treeW2 false false false
      (FS.mk [] []) []
      ([( "d" ).data], (( "b.txt" ).data, ( "BW" ).data))
      [([], (( "a.txt" ).data, ( "AW" ).data))]
      (FS.mk [] [], 0)
      (FS.mk [] [Event.mk false [( "d" ).data, ( "b.txt" ).data] ( "b.txt" ).data])
      (by decide) rfl rfl,
   claim6_error_propagation.2.2 (fun _ _ => false) ( "*.txt" ).data treeW false false false
      (FS.mk [] []) (fun _ _ => rfl)⟩

end RCopy
